import Mathlib

/-!
Verification of the dependencyFramework repository.

The repository implements a dependency graph of work items.  Two
near-identical implementations exist in the source: `Node` (package
`dependencygraph`) and `Module` (package `main`).  Their methods
`Pass`, `Fail`, `DependsOn` and the free function `Step` are
line-for-line identical; only construction differs (`NewModule`
rejects the empty name, `NewNode` performs no validation).  We embed
one graph state shared by both and model each operation.

Modelling choices:
- Go pointers to nodes become `Nat` indices into a list of node
  records (`Graph := List NodeData`); reading an out-of-range index
  yields a default record and writing to it is a no-op (unreachable
  for states built through the API, where every stored index is
  valid).
- The Go field `*status` (`nil` = not run, `Failed : bool`) becomes
  `Option Bool` (`none` = not run, `some false` = passed,
  `some true` = failed).
- Methods that mutate in place and return an `error` become functions
  `Graph → ... → Graph × Option Err`: the returned graph carries the
  mutations that happened before the error was returned, as in Go.
- The traversal loop in `Fail` uses the `nodeStack` helper: pushes
  append to the end of a slice and pops take from the end (LIFO).  We
  model the stack as a list whose head is the top, so pushing a
  sequence of elements appends their reverse at the front.
- The loop is written with explicit fuel; `Fail` supplies the fuel
  `failMeasure`, and we prove (claim C10) that this fuel always
  suffices, so the out-of-fuel branch of `Fail` is dead.
-/

namespace DepGraph

/-- Error kinds of the library (Go returns `error` values; the spec
names them `EmptyName`, `SelfDependency`, `DuplicateDependency`,
`AlreadyResolved`, `CircularDependency`, `NotResolved`,
`EmptyStack`). -/
inductive Err where
  | emptyName
  | selfDependency
  | duplicateDependency
  | alreadyResolved
  | circularDependency
  | notResolved
  | emptyStack
deriving Repr, DecidableEq

/-- One node record, mirroring the Go struct `Node` / `Module`:
`name`, `blocked`, `hasDependencies`, `depsRemaining`,
`dependencyOf` (indices of the nodes this node is a dependency of)
and the nullable `status`. -/
structure NodeData where
  name : String
  blocked : Bool
  hasDependencies : Bool
  depsRemaining : Int
  dependencyOf : List Nat
  status : Option Bool
deriving Repr, DecidableEq

instance : Inhabited NodeData :=
  ⟨{ name := "", blocked := false, hasDependencies := false,
     depsRemaining := 0, dependencyOf := [], status := none }⟩

/-- The graph state: the heap of node records, addressed by index. -/
abbrev Graph := List NodeData

/-- Dereference a node pointer (out-of-range reads give the default
record; such indices never occur in states built through the API). -/
def getNode (g : Graph) (i : Nat) : NodeData := g.getD i default

/-- Mutate the node at index `i` in place. -/
def modifyNode (g : Graph) (i : Nat) (f : NodeData → NodeData) : Graph :=
  g.set i (f (getNode g i))

/-- Go `NewNode(name)`: returns `&Node{name: name}` with all other
fields zero-valued.  There is no validation of the name. -/
def NewNode (name : String) : NodeData :=
  { name := name, blocked := false, hasDependencies := false,
    depsRemaining := 0, dependencyOf := [], status := none }

/-- Go `NewModule(name)`: rejects the empty name with an error and
otherwise returns the zero-valued module. -/
def NewModule (name : String) : Except Err NodeData :=
  if name = "" then .error .emptyName else .ok (NewNode name)

/-- The decrement loop shared by `Pass` and `Fail`: for every index in
`l`, decrement that node's `depsRemaining` by one. -/
def decDeps (g : Graph) (l : List Nat) : Graph :=
  l.foldl (fun h j =>
    modifyNode h j (fun n => { n with depsRemaining := n.depsRemaining - 1 })) g

/-- Go `(*Node).Pass` / `(*Module).Pass`: if the status is already
set, return the already-resolved error and change nothing; otherwise
set the status to passed and decrement `depsRemaining` on every node
in `dependencyOf`. -/
def Pass (g : Graph) (i : Nat) : Graph × Option Err :=
  let n := getNode g i
  if n.status.isSome then (g, some .alreadyResolved)
  else
    let g1 := modifyNode g i (fun m => { m with status := some false })
    (decDeps g1 n.dependencyOf, none)

/-- Mark the node at index `i` as blocked. -/
def setBlocked (g : Graph) (i : Nat) : Graph :=
  modifyNode g i (fun n => { n with blocked := true })

/-- The traversal loop of Go `(*Node).Fail` / `(*Module).Fail`, with
explicit fuel.  Mirrors the Go loop exactly: while the stack is
non-empty, pop a node; if its name equals the originating node's
name, return the circular-dependency error; if its name is not yet
visited, mark it visited, set its `blocked` flag, and push every
dependent whose name is not visited.  `none` means the fuel ran out
(proved impossible for the fuel `Fail` supplies). -/
def failLoop (fuel : Nat) (orig : String) (g : Graph)
    (visited : List String) (stack : List Nat) : Option (Graph × Option Err) :=
  match fuel, stack with
  | _, [] => some (g, none)
  | 0, _ :: _ => none
  | fuel + 1, j :: rest =>
    let n := getNode g j
    if n.name = orig then some (g, some .circularDependency)
    else if visited.contains n.name then failLoop fuel orig g visited rest
    else
      let visited1 := n.name :: visited
      let g1 := setBlocked g j
      let pushes := (getNode g1 j).dependencyOf.filter
        (fun k => !(visited1.contains (getNode g1 k).name))
      failLoop fuel orig g1 visited1 (pushes.reverse ++ rest)

/-- Weight of the not-yet-visited part of the graph: the sum, over
nodes whose name is unvisited, of their out-degree.  Expanding a node
moves its name into the visited set, so this quantity strictly
dominates the extra stack growth an expansion can cause. -/
def unvisitedWeight (g : Graph) (visited : List String) : Nat :=
  (g.map (fun n => if n.name ∈ visited then 0 else n.dependencyOf.length)).sum

/-- Fuel supplied to `failLoop`: current stack size plus the weight of
the unvisited part of the graph.  Every loop iteration strictly
decreases this quantity. -/
def failMeasure (g : Graph) (visited : List String) (stack : List Nat) : Nat :=
  stack.length + unvisitedWeight g visited

/-- Go `(*Node).Fail` / `(*Module).Fail` up to the traversal loop,
returning `none` if the loop's fuel runs out (proved impossible): if
the status is already set, return the already-resolved error;
otherwise set the status to failed, decrement `depsRemaining` on
every dependent, seed the visited set with this node's name, push the
dependents, and run the traversal. -/
def FailCore (g : Graph) (i : Nat) : Option (Graph × Option Err) :=
  let n := getNode g i
  if n.status.isSome then some (g, some .alreadyResolved)
  else
    let g1 := modifyNode g i (fun m => { m with status := some true })
    let g2 := decDeps g1 n.dependencyOf
    let stack := n.dependencyOf.reverse
    let visited := [n.name]
    failLoop (failMeasure g2 visited stack) n.name g2 visited stack

/-- Go `(*Node).Fail` / `(*Module).Fail`.  The default is never used:
`FailCore` always returns `some` (claim C10). -/
def Fail (g : Graph) (i : Nat) : Graph × Option Err :=
  (FailCore g i).getD (g, none)

/-- Go `(*Node).DependsOn` / `(*Module).DependsOn`: `m` becomes
dependent on `dep`.  Rejects when the two names are equal; then runs
the (ineffective, see claim C4) duplicate scan comparing each entry
of `dep.dependencyOf` against `dep`'s own name; on success appends
`m` to `dep.dependencyOf`, increments `m.depsRemaining` and sets
`m.hasDependencies`. -/
def DependsOn (g : Graph) (m dep : Nat) : Graph × Option Err :=
  let mN := getNode g m
  let depN := getNode g dep
  if depN.name = mN.name then (g, some .selfDependency)
  else if depN.dependencyOf.any (fun d => (getNode g d).name = depN.name) then
    (g, some .duplicateDependency)
  else
    let g1 := modifyNode g dep (fun n => { n with dependencyOf := n.dependencyOf ++ [m] })
    let g2 := modifyNode g1 m (fun n =>
      { n with depsRemaining := n.depsRemaining + 1, hasDependencies := true })
    (g2, none)

/-- The dependents of node `i` that are ready per Go `Step`'s filter:
not blocked and `depsRemaining == 0`. -/
def readyDependents (g : Graph) (i : Nat) : List Nat :=
  (getNode g i).dependencyOf.filter
    (fun j => !(getNode g j).blocked && (getNode g j).depsRemaining == 0)

/-- Go `Step(nodes)`: walk the input list in order; on the first node
whose status is still nil return the not-resolved error (discarding
any dependents already collected); otherwise append the ready
dependents of each node. -/
def Step (g : Graph) : List Nat → Except Err (List Nat)
  | [] => .ok []
  | i :: rest =>
    if (getNode g i).status = none then .error .notResolved
    else
      match Step g rest with
      | .error e => .error e
      | .ok d => .ok (readyDependents g i ++ d)

/-- The edge relation of the graph: `b` is a direct dependent of `a`
(Go: `b ∈ a.dependencyOf`). -/
@[reducible] def EdgeTo (g : Graph) (a b : Nat) : Prop :=
  b ∈ (getNode g a).dependencyOf

/-- `b` is a transitive dependent of `a`: reachable from `a` through
one or more `dependencyOf` edges. -/
def Reach (g : Graph) (a b : Nat) : Prop :=
  Relation.TransGen (EdgeTo g) a b

/-! Basic lemmas about the heap operations. -/

lemma getNode_modifyNode (g : Graph) (i : Nat) (f : NodeData → NodeData) (j : Nat) :
    getNode (modifyNode g i f) j =
      if j = i ∧ i < g.length then f (getNode g i) else getNode g j := by
  simp only [getNode, modifyNode, List.getD_eq_getElem?_getD, List.getElem?_set]
  rcases eq_or_ne i j with rfl | hne
  · by_cases hi : i < g.length
    · simp [hi]
    · rw [List.getElem?_eq_none (le_of_not_lt hi)]
      simp [hi]
  · simp [hne, Ne.symm hne, fun h : i = j => hne h]

@[simp] lemma length_modifyNode (g : Graph) (i : Nat) (f : NodeData → NodeData) :
    (modifyNode g i f).length = g.length := by
  simp [modifyNode]

lemma modifyNode_field {β : Type} (F : NodeData → β) {f : NodeData → NodeData}
    (hF : ∀ n, F (f n) = F n) (g : Graph) (i j : Nat) :
    F (getNode (modifyNode g i f) j) = F (getNode g j) := by
  rw [getNode_modifyNode]
  split_ifs with h
  · rw [h.1, hF]
  · rfl

lemma decDeps_cons (g : Graph) (a : Nat) (t : List Nat) :
    decDeps g (a :: t) =
      decDeps (modifyNode g a (fun n => { n with depsRemaining := n.depsRemaining - 1 })) t := by
  simp [decDeps]

@[simp] lemma length_decDeps : ∀ (l : List Nat) (g : Graph),
    (decDeps g l).length = g.length := by
  intro l
  induction l with
  | nil => intro g; rfl
  | cons a t ih => intro g; rw [decDeps_cons, ih, length_modifyNode]

lemma decDeps_field {β : Type} (F : NodeData → β)
    (hF : ∀ n, F { n with depsRemaining := n.depsRemaining - 1 } = F n) :
    ∀ (l : List Nat) (g : Graph) (j : Nat),
      F (getNode (decDeps g l) j) = F (getNode g j) := by
  intro l
  induction l with
  | nil => intro g j; rfl
  | cons a t ih => intro g j; rw [decDeps_cons, ih, modifyNode_field F hF]

lemma depsRemaining_decDeps : ∀ (l : List Nat) (g : Graph) (j : Nat), j < g.length →
    (getNode (decDeps g l) j).depsRemaining
      = (getNode g j).depsRemaining - (l.count j : Int) := by
  intro l
  induction l with
  | nil => intro g j _; simp [decDeps]
  | cons a t ih =>
    intro g j hj
    rw [decDeps_cons, ih _ j (by rw [length_modifyNode]; exact hj), getNode_modifyNode]
    rcases eq_or_ne j a with rfl | hne
    · rw [if_pos ⟨rfl, hj⟩]
      simp only [List.count_cons]
      rw [if_pos (by simp)]
      push_cast
      ring
    · rw [if_neg (by simp [hne])]
      simp [List.count_cons, Ne.symm hne]

lemma getNode_oob (g : Graph) (j : Nat) (h : g.length ≤ j) : getNode g j = default := by
  simp [getNode, List.getD_eq_getElem?_getD, List.getElem?_eq_none h]

lemma setBlocked_field {β : Type} (F : NodeData → β)
    (hF : ∀ n, F { n with blocked := true } = F n) (g : Graph) (j k : Nat) :
    F (getNode (setBlocked g j) k) = F (getNode g k) :=
  modifyNode_field F hF g j k

@[simp] lemma length_setBlocked (g : Graph) (j : Nat) :
    (setBlocked g j).length = g.length :=
  length_modifyNode g j _

lemma getNode_setBlocked (g : Graph) (j k : Nat) :
    getNode (setBlocked g j) k
      = if k = j ∧ j < g.length then { getNode g j with blocked := true }
        else getNode g k :=
  getNode_modifyNode g j _ k

/-! Lemmas about the traversal measure. -/

lemma unvisitedWeight_cons (n : NodeData) (t : Graph) (v : List String) :
    unvisitedWeight (n :: t) v
      = (if n.name ∈ v then 0 else n.dependencyOf.length) + unvisitedWeight t v := by
  simp [unvisitedWeight]

lemma unvisitedWeight_mono : ∀ (g : Graph) (v v' : List String),
    (∀ s ∈ v, s ∈ v') → unvisitedWeight g v' ≤ unvisitedWeight g v := by
  intro g
  induction g with
  | nil => intro v v' _; simp [unvisitedWeight]
  | cons n t ih =>
    intro v v' hsub
    rw [unvisitedWeight_cons, unvisitedWeight_cons]
    have h1 : (if n.name ∈ v' then 0 else n.dependencyOf.length)
        ≤ (if n.name ∈ v then 0 else n.dependencyOf.length) := by
      by_cases h : n.name ∈ v
      · simp [h, hsub _ h]
      · split_ifs <;> omega
    exact Nat.add_le_add h1 (ih v v' hsub)

lemma unvisitedWeight_mark : ∀ (g : Graph) (j : Nat) (v : List String),
    j < g.length → (getNode g j).name ∉ v →
    unvisitedWeight g ((getNode g j).name :: v) + (getNode g j).dependencyOf.length
      ≤ unvisitedWeight g v := by
  intro g
  induction g with
  | nil => intro j v h _; simp at h
  | cons n t ih =>
    intro j v hj hnv
    cases j with
    | zero =>
      have hg : getNode (n :: t) 0 = n := rfl
      rw [hg] at hnv ⊢
      rw [unvisitedWeight_cons, unvisitedWeight_cons]
      rw [if_pos (List.mem_cons_self _ _), if_neg hnv]
      have := unvisitedWeight_mono t v (n.name :: v) (fun s hs => List.mem_cons_of_mem _ hs)
      omega
    | succ k =>
      have hg : getNode (n :: t) (k + 1) = getNode t k := rfl
      rw [hg] at hnv ⊢
      rw [unvisitedWeight_cons, unvisitedWeight_cons]
      have hk : k < t.length := by simpa using hj
      have hmain := ih k v hk hnv
      have hhead : (if n.name ∈ (getNode t k).name :: v then 0 else n.dependencyOf.length)
          ≤ (if n.name ∈ v then 0 else n.dependencyOf.length) := by
        by_cases h : n.name ∈ v
        · simp [h, List.mem_cons_of_mem _ h]
        · split_ifs <;> omega
      omega

lemma unvisitedWeight_modify : ∀ (g : Graph) (i : Nat) (f : NodeData → NodeData),
    (∀ n, (f n).name = n.name) → (∀ n, (f n).dependencyOf = n.dependencyOf) →
    ∀ v, unvisitedWeight (modifyNode g i f) v = unvisitedWeight g v := by
  intro g
  induction g with
  | nil => intro i f _ _ v; rfl
  | cons n t ih =>
    intro i f hn hd v
    cases i with
    | zero =>
      have h0 : modifyNode (n :: t) 0 f = f n :: t := rfl
      rw [h0, unvisitedWeight_cons, unvisitedWeight_cons, hn, hd]
    | succ k =>
      have h1 : modifyNode (n :: t) (k + 1) f = n :: modifyNode t k f := rfl
      rw [h1, unvisitedWeight_cons, unvisitedWeight_cons, ih k f hn hd v]

/-! Termination of the failure traversal: the fuel `failMeasure`
always suffices. -/

lemma failLoop_isSome (orig : String) : ∀ (fuel : Nat) (g : Graph) (vis : List String)
    (stack : List Nat), failMeasure g vis stack ≤ fuel →
    (failLoop fuel orig g vis stack).isSome = true := by
  intro fuel
  induction fuel with
  | zero =>
    intro g vis stack hle
    cases stack with
    | nil => rfl
    | cons j rest =>
      exfalso
      simp only [failMeasure, List.length_cons] at hle
      omega
  | succ m ih =>
    intro g vis stack hle
    cases stack with
    | nil => rfl
    | cons j rest =>
      simp only [failLoop]
      by_cases h1 : (getNode g j).name = orig
      · rw [if_pos h1]; rfl
      · rw [if_neg h1]
        by_cases h2 : vis.contains (getNode g j).name
        · rw [if_pos h2]
          apply ih
          simp only [failMeasure, List.length_cons] at hle ⊢
          omega
        · rw [if_neg h2]
          apply ih
          have hP := List.length_filter_le
            (fun k => !(((getNode g j).name :: vis).contains ((getNode (setBlocked g j) k).name)))
            ((getNode (setBlocked g j) j).dependencyOf)
          have hw : unvisitedWeight (setBlocked g j) ((getNode g j).name :: vis)
              = unvisitedWeight g ((getNode g j).name :: vis) :=
            unvisitedWeight_modify g j (fun n => { n with blocked := true })
              (fun _ => rfl) (fun _ => rfl) _
          simp only [failMeasure, List.length_cons, List.length_append,
            List.length_reverse] at hle ⊢
          rw [hw]
          by_cases hjl : j < g.length
          · have hdl : (getNode (setBlocked g j) j).dependencyOf.length
                = (getNode g j).dependencyOf.length := by
              rw [setBlocked_field (fun n => n.dependencyOf) (fun _ => rfl)]
            have hmark := unvisitedWeight_mark g j vis hjl (by simpa using h2)
            omega
          · have hoob : getNode g j = default := getNode_oob g j (le_of_not_lt hjl)
            have hdl0 : (getNode (setBlocked g j) j).dependencyOf.length = 0 := by
              rw [setBlocked_field (fun n => n.dependencyOf) (fun _ => rfl), hoob]
              rfl
            have hmono := unvisitedWeight_mono g vis ((getNode g j).name :: vis)
              (fun s hs => List.mem_cons_of_mem _ hs)
            omega

lemma failLoop_preserves {β : Type} (F : NodeData → β)
    (hF : ∀ n, F { n with blocked := true } = F n) (orig : String) :
    ∀ (fuel : Nat) (g : Graph) (vis : List String) (stack : List Nat)
      (gf : Graph) (e : Option Err),
      failLoop fuel orig g vis stack = some (gf, e) →
      ∀ j, F (getNode gf j) = F (getNode g j) := by
  intro fuel
  induction fuel with
  | zero =>
    intro g vis stack gf e heq j
    cases stack with
    | nil =>
      simp only [failLoop, Option.some.injEq, Prod.mk.injEq] at heq
      rw [← heq.1]
    | cons a rest =>
      simp only [failLoop] at heq
      exact Option.noConfusion heq
  | succ m ih =>
    intro g vis stack gf e heq j
    cases stack with
    | nil =>
      simp only [failLoop, Option.some.injEq, Prod.mk.injEq] at heq
      rw [← heq.1]
    | cons a rest =>
      simp only [failLoop] at heq
      by_cases h1 : (getNode g a).name = orig
      · rw [if_pos h1] at heq
        simp only [Option.some.injEq, Prod.mk.injEq] at heq
        rw [← heq.1]
      · rw [if_neg h1] at heq
        by_cases h2 : vis.contains (getNode g a).name
        · rw [if_pos h2] at heq
          exact ih g vis rest gf e heq j
        · rw [if_neg h2] at heq
          rw [ih _ _ _ gf e heq j, setBlocked_field F hF]

lemma failCore_isSome (g : Graph) (i : Nat) : (FailCore g i).isSome = true := by
  by_cases h : (getNode g i).status.isSome
  · simp [FailCore, h]
  · simp only [FailCore, eq_self_iff_true, Bool.not_eq_true] at h ⊢
    rw [if_neg (by simp [h])]
    exact failLoop_isSome _ _ _ _ _ (le_refl _)

/-! Claim theorems: the simple operations. -/

/-- C3: a node whose status is already terminal rejects any further
`Pass` or `Fail` with the already-resolved error and the whole state
(in particular the node's status) is left unchanged. -/
theorem pass_fail_already_resolved (g : Graph) (i : Nat)
    (h : (getNode g i).status.isSome = true) :
    Pass g i = (g, some .alreadyResolved) ∧ Fail g i = (g, some .alreadyResolved) := by
  constructor
  · simp [Pass, h]
  · simp [Fail, FailCore, h]

theorem pass_fail_already_resolved_witness :
    (getNode [⟨"a", false, false, 0, [], some false⟩] 0).status.isSome = true ∧
    Pass [⟨"a", false, false, 0, [], some false⟩] 0
      = ([⟨"a", false, false, 0, [], some false⟩], some .alreadyResolved) ∧
    Fail [⟨"a", false, false, 0, [], some false⟩] 0
      = ([⟨"a", false, false, 0, [], some false⟩], some .alreadyResolved) :=
  ⟨by decide,
   (pass_fail_already_resolved [⟨"a", false, false, 0, [], some false⟩] 0 (by decide)).1,
   (pass_fail_already_resolved [⟨"a", false, false, 0, [], some false⟩] 0 (by decide)).2⟩

/-- C5: `Step` fails with the not-resolved error exactly when some
input node's status is still unresolved, and otherwise returns the
concatenation, over the input nodes in order, of their dependents
that are unblocked with `depsRemaining == 0` (duplicates kept: a
dependent appears once per input node listing it). -/
theorem step_spec (g : Graph) (l : List Nat) :
    Step g l =
      if l.all (fun i => (getNode g i).status.isSome) then
        .ok (l.flatMap (fun i => readyDependents g i))
      else .error .notResolved := by
  induction l with
  | nil => simp [Step]
  | cons i rest ih =>
    simp only [Step, ih, List.all_cons, List.flatMap_cons]
    by_cases h : (getNode g i).status = none
    · simp [h]
    · have hs : (getNode g i).status.isSome = true := Option.ne_none_iff_isSome.mp h
      by_cases hr : rest.all (fun i => (getNode g i).status.isSome)
      · simp [h, hs, hr]
      · simp [h, hs, hr]

/-- C7 counterexample: `NewNode` applied to the empty string does not
fail; it returns a zero-valued node with the empty name. -/
theorem newNode_empty_name_succeeds :
    NewNode "" = { name := "", blocked := false, hasDependencies := false,
                   depsRemaining := 0, dependencyOf := [], status := none } := rfl

/-- C7 amended: `NewModule` rejects the empty name with an error and
otherwise returns a fresh node; `NewNode` performs no validation and
returns a fresh node for every name, including the empty one.  Every
fresh node is unresolved, unblocked and edge-free. -/
theorem construction_spec (s : String) :
    NewNode s = { name := s, blocked := false, hasDependencies := false,
                  depsRemaining := 0, dependencyOf := [], status := none } ∧
    NewModule s = if s = "" then .error .emptyName else .ok (NewNode s) :=
  ⟨rfl, rfl⟩

/-- C8: a node can never be made to depend on itself; the call
returns the self-dependency error with the state unchanged. -/
theorem dependsOn_self_rejected (g : Graph) (i : Nat) :
    DependsOn g i i = (g, some .selfDependency) := by
  simp [DependsOn]

/-- C9: the self-dependency guard compares names, so an edge between
two distinct nodes that carry the same name is also rejected with the
self-dependency error and the state is unchanged. -/
theorem dependsOn_same_name_rejected (g : Graph) (i j : Nat) (_hne : i ≠ j)
    (hname : (getNode g i).name = (getNode g j).name) :
    DependsOn g j i = (g, some .selfDependency) := by
  simp [DependsOn, hname]

/-- Two distinct nodes that carry the same name. -/
def sameNamePair : Graph := [NewNode "x", NewNode "x"]

theorem dependsOn_same_name_rejected_witness :
    (0 : Nat) ≠ 1 ∧
    (getNode sameNamePair 0).name = (getNode sameNamePair 1).name ∧
    DependsOn sameNamePair 1 0 = (sameNamePair, some .selfDependency) :=
  ⟨by decide, by decide,
   dependsOn_same_name_rejected sameNamePair 0 1 (by decide) (by decide)⟩

/-- A three-node graph before wiring the cycle. -/
def cycleBase : Graph := [NewNode "X", NewNode "Y", NewNode "Z"]

/-- The cycle X depends-on Y, Y depends-on Z, Z depends-on X, wired
through `DependsOn` exactly as a caller would. -/
def cycleWired : Graph :=
  (DependsOn ((DependsOn ((DependsOn cycleBase 0 1).1) 1 2).1) 2 0).1

/-- C1 (code bug): on the cycle X-Y-Z wired through `DependsOn`,
`Fail` on X returns no error at all — the visited set is pre-seeded
with X's name and pushes are filtered through it, so the traversal
can never pop a node named like the origin and the circular-dependency
branch is unreachable; the call returns nil after blocking Y and Z. -/
theorem fail_in_cycle_returns_nil :
    (DependsOn cycleBase 0 1).2 = none ∧
    (DependsOn ((DependsOn cycleBase 0 1).1) 1 2).2 = none ∧
    (DependsOn ((DependsOn ((DependsOn cycleBase 0 1).1) 1 2).1) 2 0).2 = none ∧
    (Fail cycleWired 0).2 = none ∧
    (getNode (Fail cycleWired 0).1 1).blocked = true ∧
    (getNode (Fail cycleWired 0).1 2).blocked = true := by decide

/-- Two fresh nodes `a` and `b`. -/
def dupBase : Graph := [NewNode "a", NewNode "b"]

/-- The state after `b.DependsOn(a)` succeeded once. -/
def dupOnce : Graph := (DependsOn dupBase 1 0).1

/-- C4 (code bug): registering the same edge twice is not rejected —
the duplicate scan compares each stored dependent's name against the
dependency's own name, which never matches, so the second call
returns nil, appends a second copy of the edge and double-counts the
dependent's `depsRemaining`. -/
theorem duplicate_edge_not_rejected :
    (DependsOn dupBase 1 0).2 = none ∧
    (DependsOn dupOnce 1 0).2 = none ∧
    (getNode (DependsOn dupOnce 1 0).1 0).dependencyOf = [1, 1] ∧
    (getNode (DependsOn dupOnce 1 0).1 1).depsRemaining = 2 := by decide

/-- C10: `Fail` terminates on every finite graph, cyclic ones
included: the traversal (run by `FailCore` on fuel `failMeasure`,
which strictly decreases at every iteration because the visited set
admits each name at most once) always completes, so `Fail`'s
out-of-fuel fallback is dead code. -/
theorem fail_terminates (g : Graph) (i : Nat) : (FailCore g i).isSome = true :=
  failCore_isSome g i

/-- C6: for a registered edge (index `j` appears in node `i`'s
`dependencyOf`), a successful `Pass` or `Fail` on `i` decrements
`j`'s `depsRemaining` by exactly one per occurrence of the edge
(once for a single edge), and a call rejected with the
already-resolved error changes nothing. -/
theorem resolve_decrements_once_per_edge (g : Graph) (i j : Nat)
    (hedge : j ∈ (getNode g i).dependencyOf) (hj : j < g.length)
    (hstat : (getNode g i).status = none) :
    (Pass g i).2 = none ∧
    (getNode (Pass g i).1 j).depsRemaining
      = (getNode g j).depsRemaining - ((getNode g i).dependencyOf.count j : Int) ∧
    (getNode (Fail g i).1 j).depsRemaining
      = (getNode g j).depsRemaining - ((getNode g i).dependencyOf.count j : Int) ∧
    (∀ (g' : Graph) (i' : Nat), (getNode g' i').status.isSome = true →
      (Pass g' i').1 = g' ∧ (Fail g' i').1 = g') := by
  have _ := hedge
  have hns : (getNode g i).status.isSome = false := by rw [hstat]; rfl
  refine ⟨?_, ?_, ?_, ?_⟩
  · simp [Pass, hns]
  · simp only [Pass, hns, Bool.false_eq_true, if_false]
    rw [depsRemaining_decDeps _ _ j (by simpa using hj)]
    rw [@modifyNode_field _ (fun n => n.depsRemaining)
      (fun m => { m with status := some false }) (fun _ => rfl) g i j]
  · obtain ⟨r, hr⟩ := Option.isSome_iff_exists.mp (failCore_isSome g i)
    obtain ⟨gf, e⟩ := r
    have hFail : Fail g i = (gf, e) := by rw [Fail, hr]; rfl
    simp only [FailCore, hns, Bool.false_eq_true, if_false] at hr
    have hpres := failLoop_preserves (fun n => n.depsRemaining) (fun _ => rfl)
      _ _ _ _ _ gf e hr j
    rw [hFail]
    simp only at hpres
    rw [hpres]
    rw [depsRemaining_decDeps _ _ j (by simpa using hj)]
    rw [@modifyNode_field _ (fun n => n.depsRemaining)
      (fun m => { m with status := some true }) (fun _ => rfl) g i j]
  · intro g' i' h'
    exact ⟨by simp [Pass, h'], by simp [Fail, FailCore, h']⟩

/-! The blocking-propagation specification of `Fail` (claim C2). -/

lemma contains_mem {l : List String} {s : String} : l.contains s = true ↔ s ∈ l := by
  simp

lemma edgeTo_lt (g0 : Graph) {x y : Nat} (h : EdgeTo g0 x y) : x < g0.length := by
  by_contra hx
  rw [EdgeTo, getNode_oob g0 x (le_of_not_lt hx)] at h
  exact (List.not_mem_nil y) h

/-- A rank function that strictly increases along every edge makes
the graph acyclic; for finite graphs the two notions coincide, and
the rank form is checkable on concrete inputs. -/
lemma acyclic_of_rank (g0 : Graph) (rank : Nat → Nat)
    (hrank : ∀ a, a < g0.length → ∀ b ∈ (getNode g0 a).dependencyOf, rank a < rank b) :
    ∀ a, ¬ Reach g0 a a := by
  have mono : ∀ a b, Reach g0 a b → rank a < rank b := by
    intro a b h
    induction h with
    | single h1 => exact hrank _ (edgeTo_lt g0 h1) _ h1
    | tail _ h2 ih => exact lt_trans ih (hrank _ (edgeTo_lt g0 h2) _ h2)
  intro a ha
  exact lt_irrefl _ (mono a a ha)

/-- Well-formedness of the graph state as the API maintains it: the
failing node is a real node, every stored edge index is in range,
node names are unique, and the graph is acyclic. -/
structure GraphOK (g0 : Graph) (A : Nat) : Prop where
  hA : A < g0.length
  valid : ∀ a, a < g0.length → ∀ b ∈ (getNode g0 a).dependencyOf, b < g0.length
  inj : ∀ a, a < g0.length → ∀ b, b < g0.length →
    (getNode g0 a).name = (getNode g0 b).name → a = b
  acyc : ∀ a, ¬ Reach g0 a a

/-- Invariant of the blocking traversal, relative to the graph `g0`
the loop started from and the failing node `A`: the current graph
differs from `g0` only in `blocked` flags (and only at reachable
nodes); the stack holds in-range transitive dependents of `A`, none
named like `A`; every visited name except `A`'s belongs to a
reachable node already blocked; and every dependent of a visited node
is visited or still on the stack. -/
structure LoopInv (g0 : Graph) (A : Nat) (g : Graph) (vis : List String)
    (stack : List Nat) : Prop where
  shape_len : g.length = g0.length
  shape_name : ∀ j, (getNode g j).name = (getNode g0 j).name
  shape_deps : ∀ j, (getNode g j).dependencyOf = (getNode g0 j).dependencyOf
  stack_ok : ∀ j ∈ stack, j < g0.length ∧ Reach g0 A j ∧
    (getNode g0 j).name ≠ (getNode g0 A).name
  vis_orig : (getNode g0 A).name ∈ vis
  vis_ok : ∀ s ∈ vis, s = (getNode g0 A).name ∨
    ∃ a, a < g0.length ∧ Reach g0 A a ∧ (getNode g0 a).name = s ∧
      (getNode g a).blocked = true
  closure : ∀ a, a < g0.length → (getNode g0 a).name ∈ vis →
    ∀ b ∈ (getNode g0 a).dependencyOf,
      (getNode g0 b).name ∈ vis ∨ b ∈ stack
  blocked_ok : ∀ j, (getNode g j).blocked = (getNode g0 j).blocked ∨
    (j < g0.length ∧ Reach g0 A j)

lemma failLoop_run (g0 : Graph) (A : Nat) (ok : GraphOK g0 A) :
    ∀ (fuel : Nat) (g : Graph) (vis : List String) (stack : List Nat),
      LoopInv g0 A g vis stack → failMeasure g vis stack ≤ fuel →
      ∃ gf vf, failLoop fuel (getNode g0 A).name g vis stack = some (gf, none) ∧
        LoopInv g0 A gf vf [] ∧ (∀ s ∈ vis, s ∈ vf) := by
  intro fuel
  induction fuel with
  | zero =>
    intro g vis stack inv hle
    cases stack with
    | nil => exact ⟨g, vis, rfl, inv, fun s hs => hs⟩
    | cons j rest =>
      exfalso
      simp only [failMeasure, List.length_cons] at hle
      omega
  | succ m ih =>
    intro g vis stack inv hle
    cases stack with
    | nil => exact ⟨g, vis, rfl, inv, fun s hs => hs⟩
    | cons j rest =>
      obtain ⟨hjlen, hjR, hjname⟩ := inv.stack_ok j (List.mem_cons_self j rest)
      have hjg : j < g.length := by rw [inv.shape_len]; exact hjlen
      simp only [failLoop]
      rw [if_neg (by rw [inv.shape_name j]; exact hjname)]
      by_cases h2 : vis.contains (getNode g j).name
      · rw [if_pos h2]
        have hmem : (getNode g0 j).name ∈ vis := by
          rw [← inv.shape_name j]; exact contains_mem.mp h2
        have inv' : LoopInv g0 A g vis rest :=
          { inv with
            stack_ok := fun b hb => inv.stack_ok b (List.mem_cons_of_mem _ hb),
            closure := by
              intro a ha hav b hb
              rcases inv.closure a ha hav b hb with hv | hs
              · exact Or.inl hv
              · rcases List.mem_cons.mp hs with rfl | hr
                · exact Or.inl hmem
                · exact Or.inr hr }
        have hm : failMeasure g vis rest ≤ m := by
          simp only [failMeasure, List.length_cons] at hle ⊢
          omega
        exact ih g vis rest inv' hm
      · rw [if_neg h2]
        have hname1 : ∀ k, (getNode (setBlocked g j) k).name = (getNode g0 k).name :=
          fun k => by
            rw [setBlocked_field (fun n => n.name) (fun _ => rfl), inv.shape_name k]
        have hdeps1 : ∀ k, (getNode (setBlocked g j) k).dependencyOf
            = (getNode g0 k).dependencyOf :=
          fun k => by
            rw [setBlocked_field (fun n => n.dependencyOf) (fun _ => rfl),
              inv.shape_deps k]
        have hlen1 : (setBlocked g j).length = g0.length := by
          rw [length_setBlocked, inv.shape_len]
        have hblocked1j : (getNode (setBlocked g j) j).blocked = true := by
          rw [getNode_setBlocked, if_pos ⟨rfl, hjg⟩]
        have hblocked1 : ∀ k, k ≠ j →
            (getNode (setBlocked g j) k).blocked = (getNode g k).blocked := by
          intro k hk
          rw [getNode_setBlocked, if_neg (by simp [hk])]
        have inv1 : LoopInv g0 A (setBlocked g j) ((getNode g j).name :: vis)
            ((List.filter
                (fun k => !(((getNode g j).name :: vis).contains
                  ((getNode (setBlocked g j) k).name)))
                ((getNode (setBlocked g j) j).dependencyOf)).reverse ++ rest) := by
          refine ⟨hlen1, hname1, hdeps1, ?_, ?_, ?_, ?_, ?_⟩
          · -- stack_ok
            intro b hb
            rcases List.mem_append.mp hb with hpu | hre
            · obtain ⟨hbdeps, hbpred⟩ := List.mem_filter.mp (List.mem_reverse.mp hpu)
              rw [hdeps1 j] at hbdeps
              have hblen : b < g0.length := ok.valid j hjlen b hbdeps
              have hbR : Reach g0 A b := Relation.TransGen.tail hjR hbdeps
              refine ⟨hblen, hbR, ?_⟩
              intro hcon
              have hnotin : (getNode g0 b).name ∉ (getNode g j).name :: vis := by
                intro hin
                have hct : (((getNode g j).name :: vis).contains
                    ((getNode (setBlocked g j) b).name)) = true := by
                  rw [hname1 b]; exact contains_mem.mpr hin
                rw [hct] at hbpred
                exact absurd hbpred (by simp)
              exact hnotin (by rw [hcon]; exact List.mem_cons_of_mem _ inv.vis_orig)
            · exact inv.stack_ok b (List.mem_cons_of_mem _ hre)
          · -- vis_orig
            exact List.mem_cons_of_mem _ inv.vis_orig
          · -- vis_ok
            intro s hs
            rcases List.mem_cons.mp hs with rfl | hsv
            · exact Or.inr ⟨j, hjlen, hjR, (inv.shape_name j).symm, hblocked1j⟩
            · rcases inv.vis_ok s hsv with h | ⟨a, ha, hRa, hna, hba⟩
              · exact Or.inl h
              · refine Or.inr ⟨a, ha, hRa, hna, ?_⟩
                by_cases haj : a = j
                · rw [haj]; exact hblocked1j
                · rw [hblocked1 a haj]; exact hba
          · -- closure
            intro a ha hav b hb
            rcases List.mem_cons.mp hav with hhead | htail
            · have haj : a = j :=
                ok.inj a ha j hjlen (by rw [hhead, inv.shape_name j])
              subst haj
              by_cases hbv : (((getNode g a).name :: vis).contains
                  ((getNode (setBlocked g a) b).name)) = true
              · exact Or.inl (by rw [← hname1 b]; exact contains_mem.mp hbv)
              · have hf : (((getNode g a).name :: vis).contains
                    ((getNode (setBlocked g a) b).name)) = false := by
                  cases hc : (((getNode g a).name :: vis).contains
                      ((getNode (setBlocked g a) b).name)) with
                  | false => rfl
                  | true => exact absurd hc hbv
                exact Or.inr (List.mem_append.mpr (Or.inl (List.mem_reverse.mpr
                  (List.mem_filter.mpr
                    ⟨by rw [hdeps1 a]; exact hb, by simpa using hf⟩))))
            · rcases inv.closure a ha htail b hb with hbv | hbs
              · exact Or.inl (List.mem_cons_of_mem _ hbv)
              · rcases List.mem_cons.mp hbs with rfl | hbr
                · refine Or.inl ?_
                  rw [← inv.shape_name b]
                  exact List.mem_cons_self _ _
                · exact Or.inr (List.mem_append.mpr (Or.inr hbr))
          · -- blocked_ok
            intro k
            by_cases hkj : k = j
            · subst hkj; exact Or.inr ⟨hjlen, hjR⟩
            · rw [hblocked1 k hkj]; exact inv.blocked_ok k
        have hm1 : failMeasure (setBlocked g j) ((getNode g j).name :: vis)
            ((List.filter
                (fun k => !(((getNode g j).name :: vis).contains
                  ((getNode (setBlocked g j) k).name)))
                ((getNode (setBlocked g j) j).dependencyOf)).reverse ++ rest) ≤ m := by
          have hP := List.length_filter_le
            (fun k => !(((getNode g j).name :: vis).contains
              ((getNode (setBlocked g j) k).name)))
            ((getNode (setBlocked g j) j).dependencyOf)
          have hdl : (getNode (setBlocked g j) j).dependencyOf.length
              = (getNode g j).dependencyOf.length := by
            rw [setBlocked_field (fun n => n.dependencyOf) (fun _ => rfl)]
          have hw : unvisitedWeight (setBlocked g j) ((getNode g j).name :: vis)
              = unvisitedWeight g ((getNode g j).name :: vis) :=
            unvisitedWeight_modify g j (fun n => { n with blocked := true })
              (fun _ => rfl) (fun _ => rfl) _
          have hmark := unvisitedWeight_mark g j vis hjg (by simpa using h2)
          simp only [failMeasure, List.length_cons, List.length_append,
            List.length_reverse] at hle ⊢
          rw [hw]
          omega
        obtain ⟨gf, vf, heq, invf, hsub⟩ :=
          ih (setBlocked g j) ((getNode g j).name :: vis) _ inv1 hm1
        exact ⟨gf, vf, heq, invf, fun s hs => hsub s (List.mem_cons_of_mem _ hs)⟩

/-- The state `Fail` hands to its traversal loop: status of `i` set
to failed and every direct dependent's counter decremented. -/
def failMid (g : Graph) (i : Nat) : Graph :=
  decDeps (modifyNode g i (fun m => { m with status := some true }))
    (getNode g i).dependencyOf

lemma failMid_name (g : Graph) (i k : Nat) :
    (getNode (failMid g i) k).name = (getNode g k).name := by
  rw [failMid, decDeps_field (fun n => n.name) (fun _ => rfl),
    @modifyNode_field _ (fun n => n.name)
      (fun m => { m with status := some true }) (fun _ => rfl) g i k]

lemma failMid_deps (g : Graph) (i k : Nat) :
    (getNode (failMid g i) k).dependencyOf = (getNode g k).dependencyOf := by
  rw [failMid, decDeps_field (fun n => n.dependencyOf) (fun _ => rfl),
    @modifyNode_field _ (fun n => n.dependencyOf)
      (fun m => { m with status := some true }) (fun _ => rfl) g i k]

lemma failMid_blocked (g : Graph) (i k : Nat) :
    (getNode (failMid g i) k).blocked = (getNode g k).blocked := by
  rw [failMid, decDeps_field (fun n => n.blocked) (fun _ => rfl),
    @modifyNode_field _ (fun n => n.blocked)
      (fun m => { m with status := some true }) (fun _ => rfl) g i k]

lemma failMid_length (g : Graph) (i : Nat) :
    (failMid g i).length = g.length := by
  rw [failMid, length_decDeps, length_modifyNode]

/-- C2: on a well-formed acyclic graph (edge indices in range, node
names unique) whose node `A` is still unresolved, `Fail` on `A`
returns no error and blocks exactly the transitive dependents of
`A`: every node reachable from `A` through one or more
`dependencyOf` edges ends with `blocked = true`, and every node not
reachable from `A` keeps the `blocked` flag it had before the
call. -/
theorem fail_blocks_exactly (g : Graph) (A : Nat)
    (hA : A < g.length)
    (hvalid : ∀ a, a < g.length → ∀ b ∈ (getNode g a).dependencyOf, b < g.length)
    (hinj : ∀ a, a < g.length → ∀ b, b < g.length →
      (getNode g a).name = (getNode g b).name → a = b)
    (hacyc : ∀ a, ¬ Reach g a a)
    (hstat : (getNode g A).status = none) :
    (Fail g A).2 = none ∧
    ∀ j, j < g.length →
      (Reach g A j → (getNode (Fail g A).1 j).blocked = true) ∧
      (¬ Reach g A j → (getNode (Fail g A).1 j).blocked = (getNode g j).blocked) := by
  have hns : (getNode g A).status.isSome = false := by rw [hstat]; rfl
  have inv0 : LoopInv g A (failMid g A) [(getNode g A).name]
      ((getNode g A).dependencyOf.reverse) := by
    refine ⟨failMid_length g A, failMid_name g A, failMid_deps g A, ?_, ?_, ?_, ?_, ?_⟩
    · -- stack_ok
      intro b hb
      have hbd : b ∈ (getNode g A).dependencyOf := List.mem_reverse.mp hb
      have hblen : b < g.length := hvalid A hA b hbd
      have hbR : Reach g A b := Relation.TransGen.single hbd
      refine ⟨hblen, hbR, ?_⟩
      intro hcon
      have hbA : b = A := hinj b hblen A hA hcon
      exact hacyc A (hbA ▸ hbR)
    · -- vis_orig
      exact List.mem_singleton.mpr rfl
    · -- vis_ok
      intro s hs
      exact Or.inl (List.mem_singleton.mp hs)
    · -- closure
      intro a ha hav b hb
      have haA : a = A := hinj a ha A hA (List.mem_singleton.mp hav)
      subst haA
      exact Or.inr (List.mem_reverse.mpr hb)
    · -- blocked_ok
      intro k
      exact Or.inl (failMid_blocked g A k)
  obtain ⟨gf, vf, heq, invf, _⟩ :=
    failLoop_run g A ⟨hA, hvalid, hinj, hacyc⟩
      (failMeasure (failMid g A) [(getNode g A).name]
        ((getNode g A).dependencyOf.reverse))
      (failMid g A) [(getNode g A).name] ((getNode g A).dependencyOf.reverse)
      inv0 (le_refl _)
  have hcore : FailCore g A = some (gf, none) := by
    simp only [FailCore, hns, Bool.false_eq_true, if_false]
    exact heq
  have hFail : Fail g A = (gf, none) := by
    rw [Fail, hcore]
    rfl
  have hreach_name : ∀ j, Reach g A j → (getNode g j).name ∈ vf := by
    intro j hR
    induction hR with
    | single h1 =>
      rcases invf.closure A hA invf.vis_orig _ h1 with hv | hs
      · exact hv
      · exact absurd hs (List.not_mem_nil _)
    | tail hR1 h2 ih2 =>
      rcases invf.closure _ (edgeTo_lt g h2) ih2 _ h2 with hv | hs
      · exact hv
      · exact absurd hs (List.not_mem_nil _)
  refine ⟨by rw [hFail], ?_⟩
  intro j hjlen
  constructor
  · intro hR
    have hnm := hreach_name j hR
    rcases invf.vis_ok _ hnm with hor | ⟨a, ha, _, hna, hba⟩
    · have hjA : j = A := hinj j hjlen A hA hor
      exact absurd (hjA ▸ hR) (hacyc A)
    · have haj : a = j := hinj a ha j hjlen hna
      rw [hFail]
      exact haj ▸ hba
  · intro hnR
    rw [hFail]
    rcases invf.blocked_ok j with h | ⟨_, hR⟩
    · exact h
    · exact absurd hR hnR

/-- A diamond-free test graph: a chain A -> B -> C of dependents plus
an unrelated node D. -/
def chainGraph : Graph :=
  [⟨"A", false, false, 0, [1], none⟩,
   ⟨"B", false, true, 1, [2], none⟩,
   ⟨"C", false, true, 1, [], none⟩,
   ⟨"D", false, false, 0, [], none⟩]

theorem fail_blocks_exactly_witness :
    Reach chainGraph 0 1 ∧ Reach chainGraph 0 2 ∧
    (Fail chainGraph 0).2 = none ∧
    (getNode (Fail chainGraph 0).1 1).blocked = true ∧
    (getNode (Fail chainGraph 0).1 2).blocked = true := by
  have hmain := fail_blocks_exactly chainGraph 0 (by decide) (by decide) (by decide)
    (acyclic_of_rank chainGraph (fun n => n) (by decide)) (by decide)
  have h01 : Reach chainGraph 0 1 := Relation.TransGen.single (by decide)
  have h02 : Reach chainGraph 0 2 :=
    Relation.TransGen.tail h01 (by decide)
  exact ⟨h01, h02, hmain.1, (hmain.2 1 (by decide)).1 h01, (hmain.2 2 (by decide)).1 h02⟩

/-- A two-node graph with the single edge: node 1 depends on node 0. -/
def edgePair : Graph :=
  [⟨"A", false, false, 0, [1], none⟩, ⟨"B", false, true, 1, [], none⟩]

theorem resolve_decrements_once_per_edge_witness :
    1 ∈ (getNode edgePair 0).dependencyOf ∧ 1 < edgePair.length ∧
    (getNode edgePair 0).status = none ∧
    (getNode (Pass edgePair 0).1 1).depsRemaining
      = (getNode edgePair 1).depsRemaining
        - ((getNode edgePair 0).dependencyOf.count 1 : Int) ∧
    (getNode (Fail edgePair 0).1 1).depsRemaining
      = (getNode edgePair 1).depsRemaining
        - ((getNode edgePair 0).dependencyOf.count 1 : Int) :=
  ⟨by decide, by decide, by decide,
   (resolve_decrements_once_per_edge edgePair 0 1 (by decide) (by decide) (by decide)).2.1,
   (resolve_decrements_once_per_edge edgePair 0 1 (by decide) (by decide) (by decide)).2.2.1⟩

end DepGraph
